import Mathlib

/-!
# Verification of the task-app core (single-file React task tracker)

Shallow embedding of the data model, mutation operations, aggregation and
filter layers of `src/App.tsx`.  Timestamps (ISO-8601 strings produced by
`Date.prototype.toISOString`) are represented by their civil calendar
components in UTC (`DateTime` below); JavaScript `Date` mutators
(`setDate`, `setMonth`, `setHours`) are modelled by the corresponding
normalizing calendar arithmetic.  Fresh values produced by `uuidv4()` and
`new Date()` are passed as explicit parameters.
-/

namespace TaskApp

/-- A civil UTC instant: the components of an ISO-8601 timestamp string.
`month` is 0-based as in JavaScript (`Date.prototype.getMonth`);
`day` is 1-based; `msOfDay` is the time of day in milliseconds. -/
structure DateTime where
  year : Nat
  month : Nat
  day : Nat
  msOfDay : Nat
deriving DecidableEq

/-- Gregorian leap-year rule, as implemented by JavaScript `Date`. -/
def IsLeap (y : Nat) : Prop := (y % 4 = 0 ∧ y % 100 ≠ 0) ∨ y % 400 = 0

instance (y : Nat) : Decidable (IsLeap y) := by unfold IsLeap; infer_instance

/-- Length of month `m` (0-based) in year `y`, as used by `Date` normalization. -/
def daysInMonth (y m : Nat) : Nat :=
  match m with
  | 0 => 31
  | 1 => if IsLeap y then 29 else 28
  | 2 => 31
  | 3 => 30
  | 4 => 31
  | 5 => 30
  | 6 => 31
  | 7 => 31
  | 8 => 30
  | 9 => 31
  | 10 => 30
  | 11 => 31
  | _ => 31

/-- A `DateTime` whose components denote an actual calendar instant. -/
def ValidDate (d : DateTime) : Prop :=
  d.month < 12 ∧ 1 ≤ d.day ∧ d.day ≤ daysInMonth d.year d.month ∧ d.msOfDay < 86400000

instance (d : DateTime) : Decidable (ValidDate d) := by unfold ValidDate; infer_instance

/-- One step of `d.setDate(d.getDate() + 1)`: advance a day with month/year carry. -/
def addOneDay (d : DateTime) : DateTime :=
  if d.day + 1 ≤ daysInMonth d.year d.month then { d with day := d.day + 1 }
  else if d.month + 1 < 12 then { d with month := d.month + 1, day := 1 }
  else { d with year := d.year + 1, month := 0, day := 1 }

/-- Source operation `d.setDate(d.getDate() + n)` for a nonnegative offset, as iterated day steps
(extensionally equal to JavaScript's day-count normalization). -/
def addDays (d : DateTime) : Nat → DateTime
  | 0 => d
  | n + 1 => addOneDay (addDays d n)

/-- One step of `d.setDate(d.getDate() - 1)`: go back a day with borrow. -/
def subOneDay (d : DateTime) : DateTime :=
  if 1 < d.day then { d with day := d.day - 1 }
  else if 0 < d.month then { d with month := d.month - 1, day := daysInMonth d.year (d.month - 1) }
  else { d with year := d.year - 1, month := 11, day := 31 }

/-- Source operation `d.setDate(d.getDate() - n)`, as iterated day steps. -/
def subDays (d : DateTime) : Nat → DateTime
  | 0 => d
  | n + 1 => subOneDay (subDays d n)

/-- Source operation `d.setMonth(d.getMonth() + 1)`: advance the month index (with year carry),
keep the day-of-month, then normalize an overflowing day into the following
month exactly as JavaScript `Date` does (rollover, not clamping). -/
def addMonth (d : DateTime) : DateTime :=
  let y := if d.month + 1 < 12 then d.year else d.year + 1
  let m := if d.month + 1 < 12 then d.month + 1 else 0
  if d.day ≤ daysInMonth y m then ⟨y, m, d.day, d.msOfDay⟩
  else if m + 1 < 12 then ⟨y, m + 1, d.day - daysInMonth y m, d.msOfDay⟩
  else ⟨y + 1, 0, d.day - daysInMonth y m, d.msOfDay⟩

/-- Source operation `d.setHours(0, 0, 0, 0)`: midnight of the same calendar day. -/
def midnight (d : DateTime) : DateTime := { d with msOfDay := 0 }

/-- Recurrence rule of a task (source: `type Recurrence`). -/
inductive Recurrence where
  | none
  | daily
  | weekly
  | monthly
deriving DecidableEq

/-- Source: `plusInterval(dateISO, recurrence)`.  Daily adds one day, weekly
seven days, monthly one month via `setMonth`; any other value returns the
date unchanged. -/
def plusInterval (d : DateTime) (recurrence : Recurrence) : DateTime :=
  match recurrence with
  | .daily => addDays d 1
  | .weekly => addDays d 7
  | .monthly => addMonth d
  | .none => d

/-- Source: `interface Task`. -/
structure Task where
  id : String
  title : String
  notes : String
  createdAt : DateTime
  due : Option DateTime
  recurrence : Recurrence
  completed : Bool
  nextDue : Option DateTime
  archived : Bool
deriving DecidableEq

/-- Source: `interface HistoryItem`. -/
structure HistoryItem where
  id : String
  taskId : String
  title : String
  «at» : DateTime
deriving DecidableEq

/-- Source: `interface AppState` (settings holds only the timezone string). -/
structure AppState where
  tasks : List Task
  history : List HistoryItem
  settings : String
deriving DecidableEq

/-- Source: `addTask({title, notes, due, recurrence})`.  The fresh `uuidv4()`
and `nowISO()` values are the `freshId` and `now` parameters.  An empty title
is falsy in JavaScript, hence the "Untitled" default. -/
def addTask (s : AppState) (title notes : String) (due : Option DateTime)
    (recurrence : Recurrence) (freshId : String) (now : DateTime) : AppState :=
  let task : Task :=
    { id := freshId
      title := if title = "" then "Untitled" else title
      notes := notes
      createdAt := now
      due := due
      recurrence := recurrence
      completed := false
      nextDue := due
      archived := false }
  { s with tasks := task :: s.tasks }

/-- Source: `Partial<Task>` — the patch argument of `editTask`.  A `some`
field is present in the patch; for the nullable timestamp fields the inner
`Option` is the stored `string | null` value. -/
structure TaskPatch where
  id : Option String := Option.none
  title : Option String := Option.none
  notes : Option String := Option.none
  createdAt : Option DateTime := Option.none
  due : Option (Option DateTime) := Option.none
  recurrence : Option Recurrence := Option.none
  completed : Option Bool := Option.none
  nextDue : Option (Option DateTime) := Option.none
  archived : Option Bool := Option.none
deriving DecidableEq

/-- The spread `{ ...t, ...patch }`: fields present in the patch win. -/
def applyPatch (t : Task) (p : TaskPatch) : Task :=
  { id := p.id.getD t.id
    title := p.title.getD t.title
    notes := p.notes.getD t.notes
    createdAt := p.createdAt.getD t.createdAt
    due := p.due.getD t.due
    recurrence := p.recurrence.getD t.recurrence
    completed := p.completed.getD t.completed
    nextDue := p.nextDue.getD t.nextDue
    archived := p.archived.getD t.archived }

/-- Source: `editTask(id, patch)`. -/
def editTask (s : AppState) (id : String) (p : TaskPatch) : AppState :=
  { s with tasks := s.tasks.map (fun t => if t.id = id then applyPatch t p else t) }

/-- Source: `toggleComplete(id)`. -/
def toggleComplete (s : AppState) (id : String) : AppState :=
  { s with tasks := s.tasks.map (fun t => if t.id = id then { t with completed := !t.completed } else t) }

/-- Source: `completeNow(id)`.  `now` models `nowISO()` and `hid` the fresh
`uuidv4()` of the history item.  `t.nextDue || timestamp` is `Option.getD`
(the stored value is never the empty string). -/
def completeNow (s : AppState) (id : String) (now : DateTime) (hid : String) : AppState :=
  match s.tasks.find? (fun x => decide (x.id = id)) with
  | Option.none => s
  | Option.some t =>
    let historyItem : HistoryItem := { id := hid, taskId := t.id, title := t.title, «at» := now }
    let tasks1 := s.tasks.map (fun x => if x.id = id then { x with completed := true } else x)
    let tasks2 :=
      if t.recurrence ≠ Recurrence.none then
        let next := plusInterval (t.nextDue.getD now) t.recurrence
        tasks1.map (fun x => if x.id = id then { x with nextDue := Option.some next, completed := false } else x)
      else tasks1
    { s with tasks := tasks2, history := historyItem :: s.history }

/-- Source: `deleteTask(id)`. -/
def deleteTask (s : AppState) (id : String) : AppState :=
  { s with tasks := s.tasks.filter (fun t => decide (t.id ≠ id)) }

/-- Source: `archiveTask(id)` — delegates to `editTask`. -/
def archiveTask (s : AppState) (id : String) : AppState :=
  editTask s id { archived := Option.some true }

/-- The calendar-date component of a timestamp: what `toISOString().slice(0, 10)`
extracts as the `"YYYY-MM-DD"` key.  Two ISO date prefixes are equal exactly
when these component triples are equal. -/
structure DateKey where
  year : Nat
  month : Nat
  day : Nat
deriving DecidableEq

/-- Source expression `d.toISOString().slice(0, 10)` — the bucket / history date key. -/
def dateKey (d : DateTime) : DateKey := ⟨d.year, d.month, d.day⟩

/-- Models `Date.prototype.toLocaleDateString` used for the bucket display
label; the exact text is locale-dependent presentation and only functions as
a label here. -/
def localeLabel (d : DateTime) : String :=
  toString (d.month + 1) ++ "/" ++ toString d.day ++ "/" ++ toString d.year

/-- One entry of `completedByDay`: `{ date, label, count }`. -/
structure DayBucket where
  date : DateKey
  label : String
  count : Nat
deriving DecidableEq

/-- Source: `lastNDays(n)` — local midnights of the last `n` days, oldest
first (`for (let i = n - 1; i >= 0; i--)`). -/
def lastNDays (n : Nat) (now : DateTime) : List DateTime :=
  (List.range n).reverse.map (fun i => subDays (midnight now) i)

/-- The loop body of `completedByDay`: `findIndex` of the first bucket whose
date equals the key, then increment its count in place; no match leaves the
buckets unchanged. -/
def bumpFirst (k : DateKey) : List DayBucket → List DayBucket
  | [] => []
  | b :: bs => if b.date = k then { b with count := b.count + 1 } :: bs else b :: bumpFirst k bs

/-- Source: the `completedByDay` memo — the 14-day daily completion
histogram over `history`, with `now` the reference `new Date()`. -/
def completedByDay (history : List HistoryItem) (now : DateTime) : List DayBucket :=
  history.foldl (fun acc h => bumpFirst (dateKey h.«at») acc)
    ((lastNDays 14 now).map (fun d => { date := dateKey d, label := localeLabel d, count := 0 : DayBucket }))

/-- The `counts` object of `completionsPerTask`:
`counts[h.taskId] = (counts[h.taskId] || 0) + 1` over all of `history`. -/
def countsMap (history : List HistoryItem) : String → Nat :=
  history.foldl (fun g h => Function.update g h.taskId (g h.taskId + 1)) (fun _ => 0)

/-- One entry of `completionsPerTask`: `{ title, id, count }`. -/
structure CompletionStat where
  title : String
  id : String
  count : Nat
deriving DecidableEq

/-- Source: the `completionsPerTask` memo. -/
def completionsPerTask (s : AppState) : List CompletionStat :=
  s.tasks.map (fun t => { title := t.title, id := t.id, count := countsMap s.history t.id })

/-- Substring test on character lists (`String.prototype.includes`). -/
def hasSub (needle : List Char) : List Char → Bool
  | [] => needle.isEmpty
  | c :: rest => needle.isPrefixOf (c :: rest) || hasSub needle rest

/-- Substring test `hay.includes(needle)` on strings. -/
def strIncludes (hay needle : String) : Bool := hasSub needle.toList hay.toList

/-- Source: the `visibleTasks` pipeline — the filter-mode subset (the mode is
the raw `<select>` string, any unknown value takes the default branch)
followed by the case-insensitive title substring filter. -/
def visibleTasks (s : AppState) (filterMode query : String) : List Task :=
  (s.tasks.filter (fun t =>
      if filterMode = "active" then !t.completed && !t.archived
      else if filterMode = "completed" then t.completed && !t.archived
      else if filterMode = "archived" then t.archived
      else !t.archived)).filter
    (fun t => strIncludes t.title.toLower query.toLower)

/-- Number of Gregorian leap years strictly below `y`. -/
def leapsBefore (y : Nat) : Nat := (y + 3) / 4 - (y + 99) / 100 + (y + 399) / 400

/-- Days of year `y` strictly before month `m` (0-based). -/
def daysBeforeMonth (y : Nat) : Nat → Nat
  | 0 => 0
  | m + 1 => daysBeforeMonth y m + daysInMonth y m

/-- Linear day count of a calendar date (days since 0000-01-01). -/
def dayNumberOfKey (k : DateKey) : Nat :=
  365 * k.year + leapsBefore k.year + daysBeforeMonth k.year k.month + (k.day - 1)

/-- Linear day count of a timestamp's calendar date. -/
def dayNumber (d : DateTime) : Nat := dayNumberOfKey (dateKey d)

/-- Total millisecond count of a timestamp — the epoch-style linear order on
instants (`Date.prototype.getTime` up to a constant offset). -/
def toMs (d : DateTime) : Nat := 86400000 * dayNumber d + d.msOfDay

/-- Modelled from the spec: the JSON value tree produced by the platform
builtins `JSON.stringify` / `JSON.parse` (not repository code); serialization
is modelled at this tree level, the opaque text rendering being the
builtins' concern.  Timestamps appear through their calendar components
(the image of the ISO string). -/
inductive Json where
  | null
  | bool (b : Bool)
  | num (n : Nat)
  | str (s : String)
  | arr (xs : List Json)
  | obj (fields : List (String × Json))

/-- JSON image of a timestamp (stands for the ISO-8601 string field). -/
def encodeDateTime (d : DateTime) : Json :=
  Json.obj [("year", Json.num d.year), ("month", Json.num d.month),
            ("day", Json.num d.day), ("msOfDay", Json.num d.msOfDay)]

/-- Modelled from the spec: reading a stored timestamp back. -/
def decodeDateTime : Json → Option DateTime
  | Json.obj [("year", Json.num y), ("month", Json.num m),
              ("day", Json.num d), ("msOfDay", Json.num ms)] =>
    Option.some ⟨y, m, d, ms⟩
  | _ => Option.none

/-- JSON image of a nullable timestamp (`string | null`). -/
def encodeOptDate : Option DateTime → Json
  | Option.none => Json.null
  | Option.some d => encodeDateTime d

/-- Modelled from the spec: reading a nullable timestamp back. -/
def decodeOptDate : Json → Option (Option DateTime)
  | Json.null => Option.some Option.none
  | j => (decodeDateTime j).map Option.some

/-- The recurrence enumeration as its JSON string value. -/
def encodeRecurrence : Recurrence → Json
  | Recurrence.none => Json.str "none"
  | Recurrence.daily => Json.str "daily"
  | Recurrence.weekly => Json.str "weekly"
  | Recurrence.monthly => Json.str "monthly"

/-- Modelled from the spec: reading a recurrence string back. -/
def decodeRecurrence : Json → Option Recurrence
  | Json.str "none" => Option.some Recurrence.none
  | Json.str "daily" => Option.some Recurrence.daily
  | Json.str "weekly" => Option.some Recurrence.weekly
  | Json.str "monthly" => Option.some Recurrence.monthly
  | _ => Option.none

/-- JSON image of a `Task`, field for field as `JSON.stringify` writes it. -/
def encodeTask (t : Task) : Json :=
  Json.obj [("id", Json.str t.id), ("title", Json.str t.title), ("notes", Json.str t.notes),
            ("createdAt", encodeDateTime t.createdAt), ("due", encodeOptDate t.due),
            ("recurrence", encodeRecurrence t.recurrence), ("completed", Json.bool t.completed),
            ("nextDue", encodeOptDate t.nextDue), ("archived", Json.bool t.archived)]

/-- Modelled from the spec: reading a stored `Task` back. -/
def decodeTask : Json → Option Task
  | Json.obj [("id", Json.str id), ("title", Json.str title), ("notes", Json.str notes),
              ("createdAt", cj), ("due", dj), ("recurrence", rj), ("completed", Json.bool c),
              ("nextDue", nj), ("archived", Json.bool a)] =>
    match decodeDateTime cj, decodeOptDate dj, decodeRecurrence rj, decodeOptDate nj with
    | Option.some createdAt, Option.some due, Option.some recurrence, Option.some nextDue =>
      Option.some ⟨id, title, notes, createdAt, due, recurrence, c, nextDue, a⟩
    | _, _, _, _ => Option.none
  | _ => Option.none

/-- JSON image of a `HistoryItem`. -/
def encodeHistoryItem (h : HistoryItem) : Json :=
  Json.obj [("id", Json.str h.id), ("taskId", Json.str h.taskId),
            ("title", Json.str h.title), ("at", encodeDateTime h.«at»)]

/-- Modelled from the spec: reading a stored `HistoryItem` back. -/
def decodeHistoryItem : Json → Option HistoryItem
  | Json.obj [("id", Json.str id), ("taskId", Json.str taskId),
              ("title", Json.str title), ("at", aj)] =>
    (decodeDateTime aj).map (fun a => ⟨id, taskId, title, a⟩)
  | _ => Option.none

/-- Element-wise decoding of a JSON array. -/
def decodeArray (f : Json → Option α) : List Json → Option (List α)
  | [] => Option.some []
  | j :: js =>
    match f j, decodeArray f js with
    | Option.some x, Option.some xs => Option.some (x :: xs)
    | _, _ => Option.none

/-- JSON image of the whole `AppState`, as `JSON.stringify(state)` writes it. -/
def encodeAppState (s : AppState) : Json :=
  Json.obj [("tasks", Json.arr (s.tasks.map encodeTask)),
            ("history", Json.arr (s.history.map encodeHistoryItem)),
            ("settings", Json.obj [("timezone", Json.str s.settings)])]

/-- Modelled from the spec: reading a stored `AppState` back (the TypeScript
source reads the parsed tree back as `AppState` without further processing). -/
def decodeAppState : Json → Option AppState
  | Json.obj [("tasks", Json.arr tj), ("history", Json.arr hj),
              ("settings", Json.obj [("timezone", Json.str tz)])] =>
    match decodeArray decodeTask tj, decodeArray decodeHistoryItem hj with
    | Option.some tasks, Option.some history => Option.some ⟨tasks, history, tz⟩
    | _, _ => Option.none
  | _ => Option.none

/-- Source: `saveState(state)` — the JSON value written to the durable store
(`JSON.stringify` renders it to text; text rendering is the builtin's
concern and injective). -/
def saveState (s : AppState) : Json := encodeAppState s

/-- Source: `loadState()` — a missing entry yields no state; a present entry
is parsed (`JSON.parse`, here the already-parsed tree) and read back as
`AppState`; a malformed tree yields no state (the `try/catch` fallback). -/
def loadState (raw : Option Json) : Option AppState :=
  match raw with
  | Option.none => Option.none
  | Option.some j => decodeAppState j

/-! ## Calendar arithmetic lemmas -/

theorem daysInMonth_le (y m : Nat) : daysInMonth y m ≤ 31 := by
  unfold daysInMonth
  split <;> first | omega | (split_ifs <;> omega)

theorem daysInMonth_ge (y m : Nat) : 28 ≤ daysInMonth y m := by
  unfold daysInMonth
  split <;> first | omega | (split_ifs <;> omega)

theorem leapsBefore_succ (y : Nat) :
    leapsBefore (y + 1) = leapsBefore y + (if IsLeap y then 1 else 0) := by
  unfold leapsBefore IsLeap
  split_ifs with h <;> omega

theorem leapsBefore_pos (y : Nat) (hy : 1 ≤ y) : 1 ≤ leapsBefore y := by
  unfold leapsBefore
  omega

theorem daysBeforeMonth_twelve (y : Nat) :
    daysBeforeMonth y 12 = 365 + (if IsLeap y then 1 else 0) := by
  by_cases h : IsLeap y <;>
    simp [daysBeforeMonth, daysInMonth, h]

theorem dayNumber_mk (y m d ms : Nat) :
    dayNumber ⟨y, m, d, ms⟩ = 365 * y + leapsBefore y + daysBeforeMonth y m + (d - 1) := rfl

theorem validDate_mk (y m day ms : Nat) :
    ValidDate ⟨y, m, day, ms⟩ ↔ m < 12 ∧ 1 ≤ day ∧ day ≤ daysInMonth y m ∧ ms < 86400000 :=
  Iff.rfl

theorem addOneDay_spec (d : DateTime) (hv : ValidDate d) :
    ValidDate (addOneDay d) ∧ dayNumber (addOneDay d) = dayNumber d + 1 ∧
      (addOneDay d).msOfDay = d.msOfDay := by
  obtain ⟨hm, hd1, hd2, hms⟩ := hv
  have hge := daysInMonth_ge d.year (d.month + 1)
  unfold addOneDay
  split_ifs with h1 h2
  · refine ⟨?_, ?_, rfl⟩
    · simp only [validDate_mk]; omega
    · simp [dayNumber, dayNumberOfKey, dateKey]; omega
  · refine ⟨?_, ?_, rfl⟩
    · simp only [validDate_mk]; omega
    · have e1 : daysBeforeMonth d.year (d.month + 1) =
          daysBeforeMonth d.year d.month + daysInMonth d.year d.month := rfl
      simp [dayNumber, dayNumberOfKey, dateKey, e1]
      omega
  · have hm11 : d.month = 11 := by omega
    rw [hm11] at h1 hd2
    have e31 : daysInMonth d.year 11 = 31 := rfl
    have e12 : daysBeforeMonth d.year 12 = daysBeforeMonth d.year 11 + daysInMonth d.year 11 := rfl
    have h12 := daysBeforeMonth_twelve d.year
    have hls := leapsBefore_succ d.year
    refine ⟨?_, ?_, rfl⟩
    · simp only [validDate_mk]
      simp [daysInMonth]
      omega
    · have e0 : daysBeforeMonth (d.year + 1) 0 = 0 := rfl
      simp [dayNumber, dayNumberOfKey, dateKey, hm11, e0]
      rw [e31] at h1 hd2 e12
      split_ifs at h12 hls <;> omega

theorem addDays_spec (d : DateTime) (hv : ValidDate d) (n : Nat) :
    ValidDate (addDays d n) ∧ dayNumber (addDays d n) = dayNumber d + n ∧
      (addDays d n).msOfDay = d.msOfDay := by
  induction n with
  | zero => exact ⟨hv, rfl, rfl⟩
  | succ n ih =>
    obtain ⟨ih1, ih2, ih3⟩ := ih
    obtain ⟨h1, h2, h3⟩ := addOneDay_spec (addDays d n) ih1
    exact ⟨h1, by simp only [addDays]; omega, by simp only [addDays]; omega⟩

theorem subOneDay_spec (d : DateTime) (hv : ValidDate d) (hpos : 1 ≤ dayNumber d) :
    ValidDate (subOneDay d) ∧ dayNumber (subOneDay d) = dayNumber d - 1 ∧
      (subOneDay d).msOfDay = d.msOfDay := by
  obtain ⟨hm, hd1, hd2, hms⟩ := hv
  unfold subOneDay
  split_ifs with h1 h2
  · refine ⟨?_, ?_, rfl⟩
    · simp only [validDate_mk]; omega
    · simp [dayNumber, dayNumberOfKey, dateKey]; omega
  · have hd : d.day = 1 := by omega
    obtain ⟨k, hk⟩ : ∃ k, d.month = k + 1 := ⟨d.month - 1, by omega⟩
    have hge := daysInMonth_ge d.year k
    have e1 : daysBeforeMonth d.year (k + 1) =
        daysBeforeMonth d.year k + daysInMonth d.year k := rfl
    refine ⟨?_, ?_, rfl⟩
    · simp only [validDate_mk]
      simp [hk]
      omega
    · simp [dayNumber, dayNumberOfKey, dateKey, hd, hk, e1]
      omega
  · have hd : d.day = 1 := by omega
    have hm0 : d.month = 0 := by omega
    have hy : 1 ≤ d.year := by
      rcases Nat.eq_zero_or_pos d.year with h0 | h0
      · exfalso
        simp [dayNumber, dayNumberOfKey, dateKey, hd, hm0, h0, daysBeforeMonth, leapsBefore] at hpos
      · exact h0
    have hyy : (d.year - 1) + 1 = d.year := by omega
    have hls := leapsBefore_succ (d.year - 1)
    rw [hyy] at hls
    have h12 := daysBeforeMonth_twelve (d.year - 1)
    have e31 : daysInMonth (d.year - 1) 11 = 31 := rfl
    have e12 : daysBeforeMonth (d.year - 1) 12 =
        daysBeforeMonth (d.year - 1) 11 + daysInMonth (d.year - 1) 11 := rfl
    rw [e31] at e12
    refine ⟨?_, ?_, rfl⟩
    · simp only [validDate_mk]
      simp [daysInMonth]
      omega
    · have e0 : daysBeforeMonth d.year 0 = 0 := rfl
      simp [dayNumber, dayNumberOfKey, dateKey, hd, hm0, e0]
      split_ifs at h12 hls <;> omega

theorem subDays_spec (d : DateTime) (hv : ValidDate d) (n : Nat) (hn : n ≤ dayNumber d) :
    ValidDate (subDays d n) ∧ dayNumber (subDays d n) = dayNumber d - n ∧
      (subDays d n).msOfDay = d.msOfDay := by
  induction n with
  | zero => exact ⟨hv, rfl, rfl⟩
  | succ n ih =>
    obtain ⟨ih1, ih2, ih3⟩ := ih (by omega)
    obtain ⟨h1, h2, h3⟩ := subOneDay_spec (subDays d n) ih1 (by omega)
    exact ⟨h1, by simp only [subDays]; omega, by simp only [subDays]; omega⟩

theorem addMonth_spec (d : DateTime) (hv : ValidDate d) :
    ValidDate (addMonth d) ∧
      dayNumber (addMonth d) = dayNumber d + daysInMonth d.year d.month ∧
      (addMonth d).msOfDay = d.msOfDay := by
  obtain ⟨hm, hd1, hd2, hms⟩ := hv
  have hle := daysInMonth_le d.year d.month
  unfold addMonth
  simp only
  split_ifs with h1 h2 h3 h4 h5
  · -- next month within the year, day fits
    have e1 : daysBeforeMonth d.year (d.month + 1) =
        daysBeforeMonth d.year d.month + daysInMonth d.year d.month := rfl
    refine ⟨?_, ?_, rfl⟩
    · simp only [validDate_mk]; omega
    · simp [dayNumber, dayNumberOfKey, dateKey, e1]; omega
  · -- next month within the year, day overflows into the month after
    have hge1 := daysInMonth_ge d.year (d.month + 1)
    have hge2 := daysInMonth_ge d.year (d.month + 1 + 1)
    have e1 : daysBeforeMonth d.year (d.month + 1) =
        daysBeforeMonth d.year d.month + daysInMonth d.year d.month := rfl
    have e2 : daysBeforeMonth d.year (d.month + 1 + 1) =
        daysBeforeMonth d.year (d.month + 1) + daysInMonth d.year (d.month + 1) := rfl
    refine ⟨?_, ?_, rfl⟩
    · simp only [validDate_mk]; omega
    · simp [dayNumber, dayNumberOfKey, dateKey, e2, e1]; omega
  · -- day overflow out of December is impossible: December has 31 days
    exfalso
    have hm10 : d.month = 10 := by omega
    rw [hm10] at h2
    have e31 : daysInMonth d.year (10 + 1) = 31 := rfl
    rw [e31] at h2
    omega
  · -- January of the next year, day fits (December always fits)
    have hm11 : d.month = 11 := by omega
    rw [hm11] at hd2
    have e31 : daysInMonth d.year 11 = 31 := rfl
    rw [e31] at hd2
    have hls := leapsBefore_succ d.year
    have h12 := daysBeforeMonth_twelve d.year
    have e12 : daysBeforeMonth d.year 12 =
        daysBeforeMonth d.year 11 + daysInMonth d.year 11 := rfl
    rw [e31] at e12
    have e0 : daysBeforeMonth (d.year + 1) 0 = 0 := rfl
    refine ⟨?_, ?_, rfl⟩
    · simp only [validDate_mk]
      simp [daysInMonth]
      omega
    · simp [dayNumber, dayNumberOfKey, dateKey, hm11, e0, e31]
      split_ifs at h12 hls <;> omega
  · -- day overflow out of January of the next year is impossible
    exfalso
    have e31 : daysInMonth (d.year + 1) 0 = 31 := rfl
    rw [e31] at h4
    omega
  · -- same impossible overflow, remaining split of the inner condition
    exfalso
    have e31 : daysInMonth (d.year + 1) 0 = 31 := rfl
    rw [e31] at h4
    omega

theorem plusInterval_spec (d : DateTime) (hv : ValidDate d) (r : Recurrence)
    (hr : r ≠ Recurrence.none) :
    ValidDate (plusInterval d r) ∧ toMs d < toMs (plusInterval d r) ∧
      (plusInterval d r).msOfDay = d.msOfDay := by
  cases r with
  | none => exact absurd rfl hr
  | daily =>
    obtain ⟨h1, h2, h3⟩ := addDays_spec d hv 1
    exact ⟨h1, by simp only [plusInterval, toMs] at *; omega, h3⟩
  | weekly =>
    obtain ⟨h1, h2, h3⟩ := addDays_spec d hv 7
    exact ⟨h1, by simp only [plusInterval, toMs] at *; omega, h3⟩
  | monthly =>
    obtain ⟨h1, h2, h3⟩ := addMonth_spec d hv
    have hge := daysInMonth_ge d.year d.month
    exact ⟨h1, by simp only [plusInterval, toMs] at *; omega, h3⟩

/-! ## List helper lemmas -/

theorem map_if_not {α : Type} (l : List α) (p : α → Prop) [DecidablePred p] (f : α → α)
    (h : ∀ x ∈ l, ¬ p x) : l.map (fun x => if p x then f x else x) = l := by
  induction l with
  | nil => rfl
  | cons a l ih =>
    simp only [List.map_cons, if_neg (h a (List.mem_cons_self a l))]
    rw [ih (fun x hx => h x (List.mem_cons_of_mem a hx))]

theorem find?_map_update (l : List Task) (id : String) (f : Task → Task)
    (hf : ∀ x, (f x).id = x.id) :
    (l.map (fun x => if x.id = id then f x else x)).find? (fun x => decide (x.id = id)) =
      (l.find? (fun x => decide (x.id = id))).map f := by
  induction l with
  | nil => rfl
  | cons a l ih =>
    by_cases h : a.id = id
    · simp only [List.map_cons, if_pos h]
      rw [List.find?_cons_of_pos _ (by simp [hf, h]), List.find?_cons_of_pos _ (by simp [h])]
      rfl
    · simp only [List.map_cons, if_neg h]
      rw [List.find?_cons_of_neg _ (by simp [h]), List.find?_cons_of_neg _ (by simp [h]), ih]

theorem mapId_update (l : List Task) (id : String) (f : Task → Task)
    (hf : ∀ x, (f x).id = x.id) :
    (l.map (fun x => if x.id = id then f x else x)).map Task.id = l.map Task.id := by
  induction l with
  | nil => rfl
  | cons a l ih =>
    by_cases h : a.id = id <;>
      simp only [List.map_cons, if_pos, if_neg, h, hf, ih, if_true, if_false]

theorem foldl_counts (history : List HistoryItem) (g : String → Nat) (x : String) :
    history.foldl (fun g h => Function.update g h.taskId (g h.taskId + 1)) g x
      = g x + history.countP (fun h => decide (h.taskId = x)) := by
  induction history generalizing g with
  | nil => simp
  | cons a l ih =>
    rw [List.foldl_cons, ih, List.countP_cons]
    by_cases hax : a.taskId = x
    · simp [Function.update_apply, hax]
      omega
    · simp [Function.update_apply, Ne.symm hax, hax]

theorem countsMap_eq (history : List HistoryItem) (x : String) :
    countsMap history x = history.countP (fun h => decide (h.taskId = x)) := by
  unfold countsMap
  rw [foldl_counts]
  omega

theorem bumpFirst_dates (k : DateKey) (l : List DayBucket) :
    (bumpFirst k l).map DayBucket.date = l.map DayBucket.date := by
  induction l with
  | nil => rfl
  | cons b bs ih =>
    by_cases h : b.date = k <;> simp [bumpFirst, h, ih]

theorem mapDate_update (l : List DayBucket) (k : DateKey) :
    (l.map (fun b => if b.date = k then { b with count := b.count + 1 } else b)).map
        DayBucket.date = l.map DayBucket.date := by
  rw [List.map_map]
  refine List.map_congr_left (fun b _ => ?_)
  by_cases h : b.date = k <;> simp [h]

theorem bumpFirst_eq (k : DateKey) (l : List DayBucket)
    (hnd : (l.map DayBucket.date).Nodup) :
    bumpFirst k l = l.map (fun b => if b.date = k then { b with count := b.count + 1 } else b) := by
  induction l with
  | nil => rfl
  | cons b bs ih =>
    rw [List.map_cons, List.nodup_cons] at hnd
    by_cases h : b.date = k
    · simp only [bumpFirst, if_pos h, List.map_cons]
      congr 1
      refine (map_if_not bs (fun x => x.date = k) _ (fun x hx hk => ?_)).symm
      exact hnd.1 (by rw [h, ← hk]; exact List.mem_map_of_mem DayBucket.date hx)
    · simp only [bumpFirst, if_neg h, List.map_cons]
      rw [ih hnd.2]

theorem foldl_bump (history : List HistoryItem) (l : List DayBucket)
    (hnd : (l.map DayBucket.date).Nodup) :
    history.foldl (fun acc h => bumpFirst (dateKey h.«at») acc) l
      = l.map (fun b =>
          { b with count := b.count +
              history.countP (fun h => decide (dateKey h.«at» = b.date)) }) := by
  induction history generalizing l with
  | nil =>
    simp only [List.foldl_nil, List.countP_nil]
    exact (List.map_id'' (fun b => rfl) l).symm
  | cons h hs ih =>
    rw [List.foldl_cons, bumpFirst_eq _ _ hnd, ih _ (by rw [mapDate_update]; exact hnd),
      List.map_map]
    refine List.map_congr_left (fun b _ => ?_)
    simp only [Function.comp]
    by_cases hb : b.date = dateKey h.«at»
    · simp only [if_pos hb, List.countP_cons]
      have hpred : decide (dateKey h.«at» = b.date) = true := by simp [hb]
      simp [hpred]
      omega
    · simp only [if_neg hb, List.countP_cons]
      have hpred : decide (dateKey h.«at» = b.date) = false := by
        simp
        exact fun hk => hb hk.symm
      simp [hpred]

theorem dayNumber_ge (d : DateTime) (hy : 1 ≤ d.year) : 366 ≤ dayNumber d := by
  have := leapsBefore_pos d.year hy
  simp only [dayNumber, dayNumberOfKey, dateKey]
  have h365 : 365 ≤ 365 * d.year := by omega
  omega

theorem midnight_valid (d : DateTime) (hv : ValidDate d) : ValidDate (midnight d) := by
  obtain ⟨h1, h2, h3, _⟩ := hv
  exact ⟨h1, h2, h3, show (0 : Nat) < 86400000 by omega⟩

theorem dayNumber_midnight (d : DateTime) : dayNumber (midnight d) = dayNumber d := rfl

theorem dateKey_dayNumber {d e : DateTime} (h : dateKey d = dateKey e) :
    dayNumber d = dayNumber e := congrArg dayNumberOfKey h

theorem lastNDays_nodup (now : DateTime) (hv : ValidDate now) (hy : 1 ≤ now.year) :
    ((lastNDays 14 now).map dateKey).Nodup := by
  unfold lastNDays
  rw [List.map_map]
  refine List.Nodup.map_on (fun x hx y hy' hxy => ?_)
    (List.nodup_reverse.mpr (List.nodup_range 14))
  rw [List.mem_reverse, List.mem_range] at hx hy'
  have hb : 366 ≤ dayNumber (midnight now) := by
    rw [dayNumber_midnight]; exact dayNumber_ge now hy
  have hmv := midnight_valid now hv
  obtain ⟨_, hdx, _⟩ := subDays_spec (midnight now) hmv x (by omega)
  obtain ⟨_, hdy, _⟩ := subDays_spec (midnight now) hmv y (by omega)
  have := dateKey_dayNumber (d := subDays (midnight now) x) (e := subDays (midnight now) y) hxy
  rw [hdx, hdy] at this
  omega


/-! ## Claim theorems -/

/-- C2: `plusInterval` with daily adds exactly 1 calendar day, with weekly
exactly 7 calendar days, and with monthly exactly one calendar month (the
linear day count advances by the length of the starting month), in every
case preserving the time of day and yielding a valid date; month-end
overflow is normalized by rollover as native date arithmetic does, e.g.
Jan 31 2025 + 1 month is Mar 3 2025, not a clamped date. -/
theorem plusInterval_calendar (d : DateTime) (hv : ValidDate d) :
    (dayNumber (plusInterval d Recurrence.daily) = dayNumber d + 1 ∧
      (plusInterval d Recurrence.daily).msOfDay = d.msOfDay ∧
      ValidDate (plusInterval d Recurrence.daily)) ∧
    (dayNumber (plusInterval d Recurrence.weekly) = dayNumber d + 7 ∧
      (plusInterval d Recurrence.weekly).msOfDay = d.msOfDay ∧
      ValidDate (plusInterval d Recurrence.weekly)) ∧
    (dayNumber (plusInterval d Recurrence.monthly) = dayNumber d + daysInMonth d.year d.month ∧
      (plusInterval d Recurrence.monthly).msOfDay = d.msOfDay ∧
      ValidDate (plusInterval d Recurrence.monthly)) ∧
    plusInterval ⟨2025, 0, 31, 43200000⟩ Recurrence.monthly = ⟨2025, 2, 3, 43200000⟩ := by
  obtain ⟨a1, a2, a3⟩ := addDays_spec d hv 1
  obtain ⟨b1, b2, b3⟩ := addDays_spec d hv 7
  obtain ⟨c1, c2, c3⟩ := addMonth_spec d hv
  exact ⟨⟨a2, a3, a1⟩, ⟨b2, b3, b1⟩, ⟨c2, c3, c1⟩, by decide⟩

/-- Witness for C2 at a concrete date (Jan 31 2025, noon). -/
theorem plusInterval_calendar_witness :
    ValidDate ⟨2025, 0, 31, 43200000⟩ ∧
    ((dayNumber (plusInterval ⟨2025, 0, 31, 43200000⟩ Recurrence.daily)
          = dayNumber ⟨2025, 0, 31, 43200000⟩ + 1 ∧
        (plusInterval ⟨2025, 0, 31, 43200000⟩ Recurrence.daily).msOfDay = 43200000 ∧
        ValidDate (plusInterval ⟨2025, 0, 31, 43200000⟩ Recurrence.daily)) ∧
      (dayNumber (plusInterval ⟨2025, 0, 31, 43200000⟩ Recurrence.weekly)
          = dayNumber ⟨2025, 0, 31, 43200000⟩ + 7 ∧
        (plusInterval ⟨2025, 0, 31, 43200000⟩ Recurrence.weekly).msOfDay = 43200000 ∧
        ValidDate (plusInterval ⟨2025, 0, 31, 43200000⟩ Recurrence.weekly)) ∧
      (dayNumber (plusInterval ⟨2025, 0, 31, 43200000⟩ Recurrence.monthly)
          = dayNumber ⟨2025, 0, 31, 43200000⟩ + daysInMonth 2025 0 ∧
        (plusInterval ⟨2025, 0, 31, 43200000⟩ Recurrence.monthly).msOfDay = 43200000 ∧
        ValidDate (plusInterval ⟨2025, 0, 31, 43200000⟩ Recurrence.monthly)) ∧
      plusInterval ⟨2025, 0, 31, 43200000⟩ Recurrence.monthly = ⟨2025, 2, 3, 43200000⟩) :=
  ⟨by decide, plusInterval_calendar ⟨2025, 0, 31, 43200000⟩ (by decide)⟩

/-- C3: every mutation operation applied to an id that matches no task
returns the input state unchanged (deep-equal), with no exception. -/
theorem unknownId_noop (s : AppState) (id : String) (p : TaskPatch) (now : DateTime)
    (hid : String) (h : ∀ t ∈ s.tasks, t.id ≠ id) :
    editTask s id p = s ∧ toggleComplete s id = s ∧ completeNow s id now hid = s ∧
      deleteTask s id = s ∧ archiveTask s id = s := by
  have hmap : ∀ (f : Task → Task),
      s.tasks.map (fun t => if t.id = id then f t else t) = s.tasks :=
    fun f => map_if_not s.tasks (fun t => t.id = id) f h
  have hfind : s.tasks.find? (fun x => decide (x.id = id)) = Option.none :=
    List.find?_eq_none.mpr (fun x hx => by simp [h x hx])
  refine ⟨?_, ?_, ?_, ?_, ?_⟩
  · unfold editTask; rw [hmap]
  · unfold toggleComplete; rw [hmap]
  · unfold completeNow; rw [hfind]
  · unfold deleteTask
    rw [List.filter_eq_self.mpr (fun a ha => by simp [h a ha])]
  · unfold archiveTask editTask; rw [hmap]

def w3task : Task :=
  { id := "a", title := "T", notes := "", createdAt := ⟨2025, 9, 11, 0⟩,
    due := Option.none, recurrence := Recurrence.none, completed := false,
    nextDue := Option.none, archived := false }

def w3state : AppState := { tasks := [w3task], history := [], settings := "UTC" }

/-- Witness for C3: the operations on the unknown id "b" fix a concrete
one-task state. -/
theorem unknownId_noop_witness :
    (∀ t ∈ w3state.tasks, t.id ≠ "b") ∧
    (editTask w3state "b" {} = w3state ∧ toggleComplete w3state "b" = w3state ∧
      completeNow w3state "b" ⟨2025, 9, 11, 0⟩ "h" = w3state ∧
      deleteTask w3state "b" = w3state ∧ archiveTask w3state "b" = w3state) :=
  ⟨by decide, unknownId_noop w3state "b" {} ⟨2025, 9, 11, 0⟩ "h" (by decide)⟩

/-- C5: the visible task list is the filter-mode subset (active = not
completed and not archived; completed = completed and not archived;
archived = archived; the default mode "all" = not archived) intersected
with the case-insensitive title substring filter, and for every mode and
query it is a sublist of `tasks` — the most-recent-first order of `tasks`
is preserved, never re-sorted. -/
theorem visibleTasks_spec (s : AppState) (q : String) :
    visibleTasks s "active" q = s.tasks.filter
        (fun t => (!t.completed && !t.archived) && strIncludes t.title.toLower q.toLower) ∧
    visibleTasks s "completed" q = s.tasks.filter
        (fun t => (t.completed && !t.archived) && strIncludes t.title.toLower q.toLower) ∧
    visibleTasks s "archived" q = s.tasks.filter
        (fun t => t.archived && strIncludes t.title.toLower q.toLower) ∧
    visibleTasks s "all" q = s.tasks.filter
        (fun t => !t.archived && strIncludes t.title.toLower q.toLower) ∧
    ∀ filterMode, (visibleTasks s filterMode q).Sublist s.tasks := by
  refine ⟨?_, ?_, ?_, ?_, fun fm => (List.filter_sublist _).trans (List.filter_sublist _)⟩ <;>
  · unfold visibleTasks
    rw [List.filter_filter]
    refine List.filter_congr (fun t _ => ?_)
    simp [Bool.and_comm]

/-- C6: `completionsPerTask` has one entry per task of `tasks`, in the same
order, whose count is the number of history entries with that task's id;
tasks with no completions get count 0, and history entries whose `taskId`
matches no live task contribute to no entry. -/
theorem completionsPerTask_spec (s : AppState) :
    completionsPerTask s = s.tasks.map (fun t =>
        { title := t.title, id := t.id,
          count := s.history.countP (fun h => decide (h.taskId = t.id)) }) := by
  unfold completionsPerTask
  exact List.map_congr_left (fun t _ => by rw [countsMap_eq])

/-- C7: `deleteTask` removes exactly the tasks with the given id and leaves
`history` untouched, and every operation leaves `history` at least as long
as before (history is append-only). -/
theorem deleteTask_history (s : AppState) (id id2 : String) (p : TaskPatch)
    (now now2 : DateTime) (hid fid : String) (title notes : String)
    (due : Option DateTime) (r : Recurrence) :
    (deleteTask s id).history = s.history ∧
    (deleteTask s id).tasks = s.tasks.filter (fun t => decide (t.id ≠ id)) ∧
    s.history.length ≤ (addTask s title notes due r fid now).history.length ∧
    s.history.length ≤ (editTask s id2 p).history.length ∧
    s.history.length ≤ (toggleComplete s id2).history.length ∧
    s.history.length ≤ (completeNow s id2 now2 hid).history.length ∧
    s.history.length ≤ (deleteTask s id2).history.length ∧
    s.history.length ≤ (archiveTask s id2).history.length := by
  refine ⟨rfl, rfl, le_refl _, le_refl _, le_refl _, ?_, le_refl _, le_refl _⟩
  unfold completeNow
  cases hf : s.tasks.find? (fun x => decide (x.id = id2)) with
  | none => exact le_refl _
  | some t => simp

/-- C10: no mutation operation ever changes the `settings` field (the
captured timezone) of the state. -/
theorem settings_frame (s : AppState) (id : String) (p : TaskPatch) (now : DateTime)
    (hid fid : String) (title notes : String) (due : Option DateTime) (r : Recurrence) :
    (addTask s title notes due r fid now).settings = s.settings ∧
    (editTask s id p).settings = s.settings ∧
    (toggleComplete s id).settings = s.settings ∧
    (completeNow s id now hid).settings = s.settings ∧
    (deleteTask s id).settings = s.settings ∧
    (archiveTask s id).settings = s.settings := by
  refine ⟨rfl, rfl, rfl, ?_, rfl, rfl⟩
  unfold completeNow
  cases hf : s.tasks.find? (fun x => decide (x.id = id)) with
  | none => rfl
  | some t => rfl

/-! ## Round-trip of persistence (C8) -/

theorem decodeDateTime_encode (d : DateTime) :
    decodeDateTime (encodeDateTime d) = Option.some d := rfl

theorem decodeOptDate_encode (o : Option DateTime) :
    decodeOptDate (encodeOptDate o) = Option.some o := by
  cases o <;> rfl

theorem decodeRecurrence_encode (r : Recurrence) :
    decodeRecurrence (encodeRecurrence r) = Option.some r := by
  cases r <;> rfl

theorem decodeTask_encode (t : Task) : decodeTask (encodeTask t) = Option.some t := by
  unfold encodeTask
  simp only [decodeTask]
  rw [decodeDateTime_encode, decodeOptDate_encode, decodeRecurrence_encode, decodeOptDate_encode]

theorem decodeHistoryItem_encode (h : HistoryItem) :
    decodeHistoryItem (encodeHistoryItem h) = Option.some h := rfl

theorem decodeArray_map {α : Type} (f : Json → Option α) (g : α → Json) (l : List α)
    (h : ∀ x, f (g x) = Option.some x) : decodeArray f (l.map g) = Option.some l := by
  induction l with
  | nil => rfl
  | cons x xs ih =>
    rw [List.map_cons]
    simp only [decodeArray]
    rw [h x, ih]

/-- C8: storing a state and loading it back yields the same state: for every
`AppState` (in particular every one reachable by the public operations),
`loadState` applied to the stored `saveState` image returns it deep-equal. -/
theorem saveLoad_roundtrip (s : AppState) :
    loadState (Option.some (saveState s)) = Option.some s := by
  show decodeAppState (encodeAppState s) = Option.some s
  unfold encodeAppState
  simp only [decodeAppState]
  rw [decodeArray_map _ _ _ decodeTask_encode, decodeArray_map _ _ _ decodeHistoryItem_encode]

/-! ## completeNow (C1) -/

theorem completeNow_step (s : AppState) (id : String) (now : DateTime) (hid : String)
    (t : Task) (hfind : s.tasks.find? (fun x => decide (x.id = id)) = Option.some t) :
    (completeNow s id now hid).history
        = { id := hid, taskId := t.id, title := t.title, «at» := now } :: s.history ∧
    (completeNow s id now hid).tasks.find? (fun x => decide (x.id = id))
        = Option.some (if t.recurrence = Recurrence.none
            then { t with completed := true }
            else { t with
                   completed := false,
                   nextDue := Option.some (plusInterval (t.nextDue.getD now) t.recurrence) }) := by
  unfold completeNow
  rw [hfind]
  dsimp only
  by_cases hr : t.recurrence = Recurrence.none
  · rw [if_neg (by simp [hr]), if_pos hr]
    refine ⟨rfl, ?_⟩
    rw [find?_map_update s.tasks id (fun x => { x with completed := true }) (fun x => rfl), hfind]
    rfl
  · rw [if_pos hr, if_neg hr]
    refine ⟨rfl, ?_⟩
    rw [find?_map_update _ id
        (fun x => { x with
          nextDue := Option.some (plusInterval (t.nextDue.getD now) t.recurrence),
          completed := false }) (fun x => rfl),
      find?_map_update s.tasks id (fun x => { x with completed := true }) (fun x => rfl), hfind]
    rfl

/-- C1: when a task with the given id exists, `completeNow` prepends exactly
one fresh history entry carrying the task's id, current title and the
completion time, and a second `completeNow` on the same id appends another
entry (no idempotence guard).  If the task's recurrence is `none` the task
becomes completed with `nextDue` unchanged; otherwise `nextDue` becomes
`plusInterval (nextDue ?? now) recurrence`, `completed` is reset to false,
and repeated calls advance `nextDue` strictly by the recurrence step. -/
theorem completeNow_spec (s : AppState) (id : String) (now now2 : DateTime)
    (hid hid2 : String) (t : Task)
    (hfind : s.tasks.find? (fun x => decide (x.id = id)) = Option.some t)
    (hv : ValidDate (t.nextDue.getD now)) :
    (completeNow s id now hid).history
        = { id := hid, taskId := t.id, title := t.title, «at» := now } :: s.history ∧
    (completeNow (completeNow s id now hid) id now2 hid2).history.length
        = s.history.length + 2 ∧
    (t.recurrence = Recurrence.none →
      (completeNow s id now hid).tasks.find? (fun x => decide (x.id = id))
        = Option.some { t with completed := true }) ∧
    (t.recurrence ≠ Recurrence.none →
      (completeNow s id now hid).tasks.find? (fun x => decide (x.id = id))
          = Option.some { t with
                          completed := false,
                          nextDue := Option.some
                            (plusInterval (t.nextDue.getD now) t.recurrence) } ∧
        (completeNow (completeNow s id now hid) id now2 hid2).tasks.find?
            (fun x => decide (x.id = id))
          = Option.some { t with
                          completed := false,
                          nextDue := Option.some (plusInterval
                            (plusInterval (t.nextDue.getD now) t.recurrence)
                            t.recurrence) } ∧
        toMs (t.nextDue.getD now) < toMs (plusInterval (t.nextDue.getD now) t.recurrence) ∧
        toMs (plusInterval (t.nextDue.getD now) t.recurrence)
          < toMs (plusInterval (plusInterval (t.nextDue.getD now) t.recurrence)
              t.recurrence)) := by
  obtain ⟨h1, h2⟩ := completeNow_step s id now hid t hfind
  by_cases hr : t.recurrence = Recurrence.none
  · rw [if_pos hr] at h2
    obtain ⟨g1, g2⟩ := completeNow_step (completeNow s id now hid) id now2 hid2 _ h2
    refine ⟨h1, ?_, fun _ => h2, fun hne => absurd hr hne⟩
    rw [g1, h1]
    simp
  · rw [if_neg hr] at h2
    obtain ⟨g1, g2⟩ := completeNow_step (completeNow s id now hid) id now2 hid2 _ h2
    obtain ⟨hv1, hlt1, _⟩ := plusInterval_spec (t.nextDue.getD now) hv t.recurrence hr
    obtain ⟨hv2, hlt2, _⟩ := plusInterval_spec _ hv1 t.recurrence hr
    refine ⟨h1, ?_, fun he => absurd he hr, fun _ => ⟨h2, ?_, hlt1, hlt2⟩⟩
    · rw [g1, h1]
      simp
    · rw [g2]
      dsimp only
      rw [if_neg hr]
      rfl

def w1task : Task :=
  { id := "a", title := "T", notes := "", createdAt := ⟨2025, 9, 11, 0⟩,
    due := Option.some ⟨2025, 9, 12, 0⟩, recurrence := Recurrence.daily,
    completed := false, nextDue := Option.some ⟨2025, 9, 12, 0⟩, archived := false }

def w1state : AppState := { tasks := [w1task], history := [], settings := "UTC" }

/-- Witness for C1: a concrete daily task, completed twice. -/
theorem completeNow_spec_witness :
    (w1state.tasks.find? (fun x => decide (x.id = "a")) = Option.some w1task ∧
      ValidDate (w1task.nextDue.getD ⟨2025, 9, 13, 0⟩)) ∧
    (completeNow w1state "a" ⟨2025, 9, 13, 0⟩ "h1").history
        = [{ id := "h1", taskId := "a", title := "T", «at» := ⟨2025, 9, 13, 0⟩ }] ∧
    (completeNow (completeNow w1state "a" ⟨2025, 9, 13, 0⟩ "h1")
        "a" ⟨2025, 9, 14, 0⟩ "h2").history.length = 2 := by
  have H := completeNow_spec w1state "a" ⟨2025, 9, 13, 0⟩ ⟨2025, 9, 14, 0⟩ "h1" "h2"
    w1task (by decide) (by decide)
  exact ⟨⟨by decide, by decide⟩, H.1, H.2.1⟩

/-! ## Daily completion histogram (C4) -/

/-- C4: the 14-day histogram has exactly 14 buckets, one per calendar date
from 13 days before the reference day up to the reference day, oldest
first, and each bucket's count is exactly the number of history entries
whose date key equals that bucket's date; entries dated outside the window
match no bucket and are silently ignored. -/
theorem completedByDay_spec (now : DateTime) (history : List HistoryItem)
    (hv : ValidDate now) (hy : 1 ≤ now.year) :
    completedByDay history now
      = (List.range 14).reverse.map (fun i =>
          { date := dateKey (subDays (midnight now) i)
            label := localeLabel (subDays (midnight now) i)
            count := history.countP
              (fun h => decide (dateKey h.«at» = dateKey (subDays (midnight now) i))) }) ∧
    (completedByDay history now).length = 14 := by
  have hnd : (((lastNDays 14 now).map (fun d =>
      ({ date := dateKey d, label := localeLabel d, count := 0 } : DayBucket))).map
        DayBucket.date).Nodup := by
    rw [List.map_map]
    exact lastNDays_nodup now hv hy
  have heq : completedByDay history now
      = (List.range 14).reverse.map (fun i =>
          { date := dateKey (subDays (midnight now) i)
            label := localeLabel (subDays (midnight now) i)
            count := history.countP
              (fun h => decide (dateKey h.«at» = dateKey (subDays (midnight now) i))) }) := by
    unfold completedByDay
    rw [foldl_bump history _ hnd, List.map_map]
    unfold lastNDays
    rw [List.map_map]
    refine List.map_congr_left (fun i _ => ?_)
    dsimp only [Function.comp]
    congr 1
    omega
  exact ⟨heq, by rw [heq]; simp⟩

def w4now : DateTime := ⟨2025, 9, 11, 43200000⟩

def w4hist : List HistoryItem :=
  [{ id := "h1", taskId := "a", title := "T", «at» := ⟨2025, 9, 11, 1000⟩ },
   { id := "h2", taskId := "a", title := "T", «at» := ⟨2025, 9, 1, 0⟩ },
   { id := "h3", taskId := "b", title := "U", «at» := ⟨2025, 8, 1, 0⟩ }]

/-- Witness for C4: a concrete reference day (Oct 11 2025) with one entry on
the reference day, one ten days earlier and one outside the window. -/
theorem completedByDay_spec_witness :
    (ValidDate w4now ∧ 1 ≤ w4now.year) ∧
    completedByDay w4hist w4now
      = (List.range 14).reverse.map (fun i =>
          { date := dateKey (subDays (midnight w4now) i)
            label := localeLabel (subDays (midnight w4now) i)
            count := w4hist.countP
              (fun h => decide (dateKey h.«at» = dateKey (subDays (midnight w4now) i))) }) ∧
    (completedByDay w4hist w4now).length = 14 := by
  have H := completedByDay_spec w4now w4hist (by decide) (by decide)
  exact ⟨⟨by decide, by decide⟩, H.1, H.2⟩

/-! ## Task id stability and uniqueness (C9) -/

theorem completeNow_mapId (s : AppState) (id : String) (now : DateTime) (hid : String) :
    (completeNow s id now hid).tasks.map Task.id = s.tasks.map Task.id := by
  unfold completeNow
  cases hf : s.tasks.find? (fun x => decide (x.id = id)) with
  | none => rfl
  | some t =>
    dsimp only
    by_cases hr : t.recurrence ≠ Recurrence.none
    · rw [if_pos hr,
        mapId_update _ id (fun x => { x with
          nextDue := Option.some (plusInterval (t.nextDue.getD now) t.recurrence),
          completed := false }) (fun x => rfl),
        mapId_update _ id (fun x => { x with completed := true }) (fun x => rfl)]
    · rw [if_neg hr,
        mapId_update _ id (fun x => { x with completed := true }) (fun x => rfl)]

def cexTask : Task :=
  { id := "a", title := "t", notes := "", createdAt := ⟨2025, 0, 1, 0⟩,
    due := Option.none, recurrence := Recurrence.none, completed := false,
    nextDue := Option.none, archived := false }

def cexState : AppState := { tasks := [cexTask], history := [], settings := "UTC" }

/-- C9 counterexample: `editTask` shallow-merges the whole patch, and
`Partial<Task>` includes `id`, so a patch that sets `id` changes a task's
id — "for every patch, editTask leaves every task's id equal to its prior
value" is false on the code. -/
theorem editTask_changes_id :
    (editTask cexState "a" { id := Option.some "b" }).tasks.map Task.id = ["b"] ∧
    cexState.tasks.map Task.id = ["a"] := by
  exact ⟨by decide, by decide⟩

/-- C9 (amended): ids are assigned at creation and unchanged by every
operation except an `editTask` whose patch explicitly sets `id`; for every
patch that does not set `id`, `editTask` preserves all ids, and id
uniqueness within `tasks` is preserved by every operation (by `addTask`
whenever the fresh id is not already present). -/
theorem taskIds_stable (s : AppState) (id : String) (p : TaskPatch)
    (now : DateTime) (hid fid : String) (title notes : String)
    (due : Option DateTime) (r : Recurrence)
    (hp : p.id = Option.none) :
    (editTask s id p).tasks.map Task.id = s.tasks.map Task.id ∧
    (toggleComplete s id).tasks.map Task.id = s.tasks.map Task.id ∧
    (completeNow s id now hid).tasks.map Task.id = s.tasks.map Task.id ∧
    (archiveTask s id).tasks.map Task.id = s.tasks.map Task.id ∧
    (addTask s title notes due r fid now).tasks.map Task.id = fid :: s.tasks.map Task.id ∧
    (deleteTask s id).tasks.map Task.id
      = (s.tasks.filter (fun t => decide (t.id ≠ id))).map Task.id ∧
    ((s.tasks.map Task.id).Nodup →
      ((editTask s id p).tasks.map Task.id).Nodup ∧
      ((toggleComplete s id).tasks.map Task.id).Nodup ∧
      ((completeNow s id now hid).tasks.map Task.id).Nodup ∧
      ((archiveTask s id).tasks.map Task.id).Nodup ∧
      ((deleteTask s id).tasks.map Task.id).Nodup ∧
      (fid ∉ s.tasks.map Task.id →
        ((addTask s title notes due r fid now).tasks.map Task.id).Nodup)) := by
  have hedit : (editTask s id p).tasks.map Task.id = s.tasks.map Task.id := by
    unfold editTask
    exact mapId_update s.tasks id (fun t => applyPatch t p)
      (fun t => by simp [applyPatch, hp])
  have htog : (toggleComplete s id).tasks.map Task.id = s.tasks.map Task.id := by
    unfold toggleComplete
    exact mapId_update s.tasks id (fun t => { t with completed := !t.completed })
      (fun t => rfl)
  have hcomp := completeNow_mapId s id now hid
  have harch : (archiveTask s id).tasks.map Task.id = s.tasks.map Task.id := by
    unfold archiveTask editTask
    exact mapId_update s.tasks id (fun t => applyPatch t { archived := Option.some true })
      (fun t => rfl)
  have hdel : (deleteTask s id).tasks.map Task.id
      = (s.tasks.filter (fun t => decide (t.id ≠ id))).map Task.id := rfl
  refine ⟨hedit, htog, hcomp, harch, rfl, hdel, fun hnd => ?_⟩
  refine ⟨hedit ▸ hnd, htog ▸ hnd, hcomp ▸ hnd, harch ▸ hnd, ?_, fun hfid => ?_⟩
  · rw [hdel]
    exact List.Nodup.sublist (List.Sublist.map Task.id (List.filter_sublist s.tasks)) hnd
  · exact List.nodup_cons.mpr ⟨hfid, hnd⟩

/-- Witness for C9 (amended) at a concrete one-task state and empty patch. -/
theorem taskIds_stable_witness :
    (({} : TaskPatch).id = Option.none) ∧
    ((editTask cexState "a" {}).tasks.map Task.id = cexState.tasks.map Task.id ∧
      (toggleComplete cexState "a").tasks.map Task.id = cexState.tasks.map Task.id ∧
      (completeNow cexState "a" ⟨2025, 0, 2, 0⟩ "h").tasks.map Task.id
        = cexState.tasks.map Task.id ∧
      (archiveTask cexState "a").tasks.map Task.id = cexState.tasks.map Task.id ∧
      (addTask cexState "N" "" Option.none Recurrence.none "c" ⟨2025, 0, 2, 0⟩).tasks.map
          Task.id = "c" :: cexState.tasks.map Task.id ∧
      (deleteTask cexState "a").tasks.map Task.id
        = (cexState.tasks.filter (fun t => decide (t.id ≠ "a"))).map Task.id ∧
      ((cexState.tasks.map Task.id).Nodup →
        ((editTask cexState "a" {}).tasks.map Task.id).Nodup ∧
        ((toggleComplete cexState "a").tasks.map Task.id).Nodup ∧
        ((completeNow cexState "a" ⟨2025, 0, 2, 0⟩ "h").tasks.map Task.id).Nodup ∧
        ((archiveTask cexState "a").tasks.map Task.id).Nodup ∧
        ((deleteTask cexState "a").tasks.map Task.id).Nodup ∧
        ("c" ∉ cexState.tasks.map Task.id →
          ((addTask cexState "N" "" Option.none Recurrence.none "c"
            ⟨2025, 0, 2, 0⟩).tasks.map Task.id).Nodup))) :=
  ⟨rfl, taskIds_stable cexState "a" {} ⟨2025, 0, 2, 0⟩ "h" "c" "N" ""
    Option.none Recurrence.none rfl⟩

end TaskApp
